import Mathlib

/-!
# Verification of the `merkle` crate (`src/merkle.rs`)

Shallow embedding of the Merkle-tree library: the `Node` variant type, the
level-combining tree builder `MerkleTree::build_tree`, the retained-leaf
lookup and parent-walk of `MerkleTree::generate_proofs` / `gen_proof`, and the
stateless `MerkleTree::verify` fold.

Modelling conventions:
* A 32-byte digest `[u8; 32]` becomes `List Nat` (bytes as `Nat < 256`); the
  digest function `hmac_sha256::Hash::hash` becomes an explicit parameter
  `H : List Nat → List Nat` wherever a statement holds for every digest
  function, and the concrete `sha256` defined below for the known vectors.
* The Rust `Rc`/`Weak` parent links exist so that `gen_proof` can walk upward.
  In the embedding a tree node is the inductive `Node`; the parent of the node
  at position `i` of a level is, by construction in `build_tree`, the node at
  position `i / 2` of the next (combined) level, so the upward walk is embedded
  as `genWalkF`, which recomputes the next level with `combine` and steps from
  index `i` to `i / 2`, reading the sibling out of the parent node exactly as
  `gen_proof` does (by comparing the current hash with the parent's left
  child's hash).
* `build_tree` recurses without a structural bound (on an empty level it
  recurses forever), so it is embedded fuel-indexed as `buildTreeF`: `none`
  means the recursion did not finish within the given fuel.  A fuel of
  `items.length` is enough for every non-empty level (proved below), and
  exhaustion for every fuel on `[]` is the embedding of the non-termination.
-/

/-- The `Node` enum of `merkle.rs`: `Empty` placeholder, internal `node`
(with its stored hash and two children) and `leaf` (with its stored hash).
Parent back-links are not stored; see the module comment. -/
inductive Node where
  | empty : Node
  | node (hash : List Nat) (left right : Node) : Node
  | leaf (hash : List Nat) : Node
deriving DecidableEq, Repr

/-- `Node::hash`: the stored hash for `Node`/`Leaf`, and `[0u8; 32]` for
`Empty`. -/
def Node.hash : Node → List Nat
  | .empty => List.replicate 32 0
  | .node h _ _ => h
  | .leaf h => h

/-- One pass of the pairing loop in `MerkleTree::build_tree`: scan the level
two at a time; a full pair `(a, b)` becomes `Node::Node` with hash
`H(a.hash ++ b.hash)`, and a dangling last element `a` becomes `Node::Node`
with hash `H(a.hash ++ a.hash)` and right child `Node::Empty`. -/
def combine (H : List Nat → List Nat) : List Node → List Node
  | [] => []
  | [a] => [Node.node (H (a.hash ++ a.hash)) a Node.empty]
  | a :: b :: rest => Node.node (H (a.hash ++ b.hash)) a b :: combine H rest

/-- Fuel-indexed `MerkleTree::build_tree`: a level of exactly one node is the
root; otherwise recurse on the combined level.  `none` = fuel exhausted
(in the Rust source this recursion has no base case for an empty level, so on
`[]` it never returns). -/
def buildTreeF (H : List Nat → List Nat) : Nat → List Node → Option Node
  | 0, _ => none
  | _ + 1, [a] => some a
  | f + 1, items => buildTreeF H f (combine H items)

/-- The `MerkleTree` struct: the root node and the retained ordered leaf
sequence. -/
structure MerkleTree where
  root : Node
  leaves : List Node
deriving DecidableEq, Repr

/-- `MerkleTree::new`: wrap each input digest in a leaf node, build the tree,
and retain the leaves.  The fuel `hashes.length` is enough whenever the input
is non-empty; `none` embeds the non-terminating run on an empty input. -/
def MerkleTree.new (H : List Nat → List Nat) (hashes : List (List Nat)) :
    Option MerkleTree :=
  (buildTreeF H hashes.length (hashes.map Node.leaf)).map
    (fun r => { root := r, leaves := hashes.map Node.leaf })

/-- `MerkleTree::root_hash`. -/
def MerkleTree.root_hash (t : MerkleTree) : List Nat :=
  t.root.hash

/-- The leaf lookup loop at the start of `MerkleTree::generate_proofs`:
index of the first retained leaf whose stored hash equals the target, if any. -/
def lookupIdx (target : List Nat) : List Node → Option Nat
  | [] => none
  | l :: rest =>
    if l.hash = target then some 0 else (lookupIdx target rest).map (· + 1)

/-- The body of one step of `MerkleTree::gen_proof`, for the current node at
position `i` of the level `items`: the parent `p` is the node at position
`i / 2` of the combined level; if the current node's hash equals `p`'s left
child's hash the sibling is `p`'s right child — or the left child itself when
the right child is `Empty` (`p.get_right().unwrap_or(pleft)`) — recorded with
side marker `1`; otherwise the sibling is `p`'s left child, recorded with
side marker `0`. -/
def walkEntry (H : List Nat → List Nat) (items : List Node) (i : Nat) :
    List Nat × Nat :=
  match (combine H items).getD (i / 2) Node.empty with
  | Node.node _ l r =>
    if (items.getD i Node.empty).hash = l.hash then
      ((match r with | Node.empty => l | _ => r).hash, 1)
    else
      (l.hash, 0)
  | _ => (Node.empty.hash, 0)

/-- Fuel-indexed embedding of the recursive walk `MerkleTree::gen_proof`,
starting from position `i` of the level `items` (position `i` holds the
current node; its parent is position `i / 2` of `combine H items`).  On a
one-node level the current node is the root, has no parent, and the
accumulated list is returned (the empty `[]` case cannot arise in a built
tree).  Otherwise record the `walkEntry` and continue from the parent. -/
def genWalkF (H : List Nat → List Nat) : Nat → List Node → Nat → List (List Nat × Nat)
  | 0, _, _ => []
  | _ + 1, [], _ => []
  | _ + 1, [_], _ => []
  | f + 1, items, i => walkEntry H items i :: genWalkF H f (combine H items) (i / 2)

/-- `MerkleTree::generate_proofs`: look the target up among the retained
leaves; walk upward from the first match.  When no leaf matches, the current
node stays at the root, which has no parent, so `gen_proof` returns the empty
accumulator — and the result is `Ok` in every case (the `Result` error side
of the Rust signature is never produced). -/
def MerkleTree.generate_proofs (H : List Nat → List Nat) (t : MerkleTree)
    (target : List Nat) : Except String (List (List Nat × Nat)) :=
  match lookupIdx target t.leaves with
  | some j => Except.ok (genWalkF H t.leaves.length t.leaves j)
  | none => Except.ok []

/-- The `for proof in proofs` loop body of `MerkleTree::verify`: marker `1`
hashes current-then-sibling, anything else sibling-then-current. -/
def verifyLoop (H : List Nat → List Nat) (hash : List Nat) :
    List (List Nat × Nat) → List Nat
  | [] => hash
  | p :: rest =>
    verifyLoop H (if p.2 = 1 then H (hash ++ p.1) else H (p.1 ++ hash)) rest

/-- `MerkleTree::verify`: hash the raw data, then fold the proof entries. -/
def MerkleTree.verify (H : List Nat → List Nat) (data : List Nat)
    (proofs : List (List Nat × Nat)) : List Nat :=
  verifyLoop H (H data) proofs

/-! ## Basic structural lemmas -/

theorem combine_length (H : List Nat → List Nat) :
    ∀ l : List Node, (combine H l).length = (l.length + 1) / 2 := by
  intro l
  induction l using combine.induct H with
  | case1 => simp [combine]
  | case2 a => simp [combine]
  | case3 a b rest ih =>
    simp only [combine, List.length_cons, ih]
    omega

theorem combine_not_empty (H : List Nat → List Nat) :
    ∀ l : List Node, Node.empty ∉ combine H l := by
  intro l
  induction l using combine.induct H with
  | case1 => simp [combine]
  | case2 a => simp [combine]
  | case3 a b rest ih =>
    simp only [combine, List.mem_cons, not_or]
    exact ⟨by simp, ih⟩

theorem combine_getD (H : List Nat → List Nat) :
    ∀ (l : List Node) (k : Nat), 2 * k < l.length →
      (combine H l).getD k Node.empty =
        if 2 * k + 1 < l.length then
          Node.node
            (H ((l.getD (2 * k) Node.empty).hash ++
                (l.getD (2 * k + 1) Node.empty).hash))
            (l.getD (2 * k) Node.empty) (l.getD (2 * k + 1) Node.empty)
        else
          Node.node
            (H ((l.getD (2 * k) Node.empty).hash ++
                (l.getD (2 * k) Node.empty).hash))
            (l.getD (2 * k) Node.empty) Node.empty := by
  intro l
  induction l using combine.induct H with
  | case1 =>
    intro k hk
    simp at hk
  | case2 a =>
    intro k hk
    have hk0 : k = 0 := by simp at hk; omega
    subst hk0
    simp [combine]
  | case3 a b rest ih =>
    intro k hk
    match k with
    | 0 => simp [combine]
    | k' + 1 =>
      have hrest : 2 * k' < rest.length := by
        simp only [List.length_cons] at hk; omega
      have h1 : (combine H (a :: b :: rest)).getD (k' + 1) Node.empty =
          (combine H rest).getD k' Node.empty := by
        simp [combine]
      have h2 : 2 * (k' + 1) = 2 * k' + 1 + 1 := by omega
      rw [h1, ih k' hrest, h2]
      simp only [List.getD_cons_succ, List.length_cons]
      have : (2 * k' + 1 + 1 + 1 < rest.length + 1 + 1) ↔
          (2 * k' + 1 < rest.length) := by omega
      rw [if_congr this rfl rfl]

theorem buildTreeF_single (H : List Nat → List Nat) (f : Nat) (a : Node) :
    buildTreeF H (f + 1) [a] = some a := rfl

theorem buildTreeF_cons_cons (H : List Nat → List Nat) (f : Nat) (a b : Node)
    (rest : List Node) :
    buildTreeF H (f + 1) (a :: b :: rest) =
      buildTreeF H f (combine H (a :: b :: rest)) := rfl

theorem genWalkF_single (H : List Nat → List Nat) (f : Nat) (a : Node) (i : Nat) :
    genWalkF H (f + 1) [a] i = [] := rfl

theorem genWalkF_cons_cons (H : List Nat → List Nat) (f : Nat) (a b : Node)
    (rest : List Node) (i : Nat) :
    genWalkF H (f + 1) (a :: b :: rest) i =
      walkEntry H (a :: b :: rest) i ::
        genWalkF H f (combine H (a :: b :: rest)) (i / 2) := rfl

theorem getD_mem_of_lt {α : Type} (d : α) :
    ∀ (l : List α) (n : Nat), n < l.length → l.getD n d ∈ l
  | a :: l, 0, _ => List.mem_cons_self a l
  | a :: l, n + 1, h =>
    List.mem_cons_of_mem a (getD_mem_of_lt d l n (by simpa using h))

/-- One step of the upward walk is consistent with one step of the `verify`
fold: feeding the current node's hash and the recorded `walkEntry` into the
loop body of `verify` yields exactly the parent's stored hash. -/
theorem walkEntry_step (H : List Nat → List Nat) (items : List Node) (i : Nat)
    (hne : Node.empty ∉ items) (hi : i < items.length) :
    (if (walkEntry H items i).2 = 1
      then H ((items.getD i Node.empty).hash ++ (walkEntry H items i).1)
      else H ((walkEntry H items i).1 ++ (items.getD i Node.empty).hash)) =
    ((combine H items).getD (i / 2) Node.empty).hash := by
  have h2k : 2 * (i / 2) < items.length := by omega
  have hsplit : i = 2 * (i / 2) ∨ i = 2 * (i / 2) + 1 := by omega
  by_cases hlt : 2 * (i / 2) + 1 < items.length
  · have hRne : items.getD (2 * (i / 2) + 1) Node.empty ≠ Node.empty := by
      intro hR
      exact hne (hR ▸ getD_mem_of_lt Node.empty items (2 * (i / 2) + 1) hlt)
    by_cases hcur :
        (items.getD i Node.empty).hash =
          (items.getD (2 * (i / 2)) Node.empty).hash
    · have hw : walkEntry H items i =
          ((items.getD (2 * (i / 2) + 1) Node.empty).hash, 1) := by
        unfold walkEntry
        rw [combine_getD H items (i / 2) h2k, if_pos hlt]
        cases hR : items.getD (2 * (i / 2) + 1) Node.empty with
        | empty => exact absurd hR hRne
        | node h l r => simp only [hcur, eq_self_iff_true, if_true]
        | leaf h => simp only [hcur, eq_self_iff_true, if_true]
      rw [combine_getD H items (i / 2) h2k, if_pos hlt, hw]
      show H ((items.getD i Node.empty).hash ++
          (items.getD (2 * (i / 2) + 1) Node.empty).hash) =
        H ((items.getD (2 * (i / 2)) Node.empty).hash ++
          (items.getD (2 * (i / 2) + 1) Node.empty).hash)
      rw [hcur]
    · have hi2 : i = 2 * (i / 2) + 1 := by
        rcases hsplit with h | h
        · refine absurd ?_ hcur
          show (items.getD i Node.empty).hash =
            (items.getD (2 * (i / 2)) Node.empty).hash
          conv_lhs => rw [h]
        · exact h
      have hcurR : items.getD i Node.empty =
          items.getD (2 * (i / 2) + 1) Node.empty := by
        conv_lhs => rw [hi2]
      have hw : walkEntry H items i =
          ((items.getD (2 * (i / 2)) Node.empty).hash, 0) := by
        unfold walkEntry
        rw [combine_getD H items (i / 2) h2k, if_pos hlt]
        simp only [if_neg hcur]
      rw [combine_getD H items (i / 2) h2k, if_pos hlt, hw]
      show H ((items.getD (2 * (i / 2)) Node.empty).hash ++
          (items.getD i Node.empty).hash) =
        H ((items.getD (2 * (i / 2)) Node.empty).hash ++
          (items.getD (2 * (i / 2) + 1) Node.empty).hash)
      rw [hcurR]
  · have hi2 : i = 2 * (i / 2) := by omega
    have hcurL : items.getD i Node.empty =
        items.getD (2 * (i / 2)) Node.empty := by
      conv_lhs => rw [hi2]
    have hw : walkEntry H items i =
        ((items.getD (2 * (i / 2)) Node.empty).hash, 1) := by
      unfold walkEntry
      rw [combine_getD H items (i / 2) h2k, if_neg hlt]
      simp only [hcurL, eq_self_iff_true, if_true]
    rw [combine_getD H items (i / 2) h2k, if_neg hlt, hw]
    show H ((items.getD i Node.empty).hash ++
        (items.getD (2 * (i / 2)) Node.empty).hash) =
      H ((items.getD (2 * (i / 2)) Node.empty).hash ++
        (items.getD (2 * (i / 2)) Node.empty).hash)
    rw [hcurL]

/-- Walk/fold correctness: replaying the recorded walk from the starting
node's hash with the `verify` loop reproduces the hash of the node that
`build_tree` returns for that level. -/
theorem genWalkF_fold (H : List Nat → List Nat) :
    ∀ (fuel : Nat) (items : List Node) (i : Nat) (r : Node),
      items.length ≤ fuel → Node.empty ∉ items → i < items.length →
      buildTreeF H fuel items = some r →
      verifyLoop H ((items.getD i Node.empty).hash) (genWalkF H fuel items i) =
        r.hash := by
  intro fuel
  induction fuel with
  | zero =>
    intro items i r hf hne hi hb
    omega
  | succ f ih =>
    intro items i r hf hne hi hb
    rcases items with _ | ⟨a, _ | ⟨b, rest⟩⟩
    · simp at hi
    · have hr : a = r := by
        rw [buildTreeF_single] at hb
        exact Option.some.inj hb
      have hi0 : i = 0 := by simp at hi; omega
      subst hr
      subst hi0
      rw [genWalkF_single]
      rfl
    · rw [genWalkF_cons_cons, verifyLoop,
        walkEntry_step H (a :: b :: rest) i hne hi]
      rw [buildTreeF_cons_cons] at hb
      apply ih
      · rw [combine_length]
        simp only [List.length_cons] at hf ⊢
        omega
      · exact combine_not_empty H _
      · rw [combine_length]
        simp only [List.length_cons] at hi ⊢
        omega
      · exact hb

/-- With fuel at least the level's length, `build_tree` reaches a root on
every non-empty level. -/
theorem buildTreeF_some (H : List Nat → List Nat) :
    ∀ (fuel : Nat) (items : List Node),
      items ≠ [] → items.length ≤ fuel →
      ∃ r, buildTreeF H fuel items = some r := by
  intro fuel
  induction fuel with
  | zero =>
    intro items hne hf
    rcases items with _ | ⟨a, l⟩
    · exact absurd rfl hne
    · simp at hf
  | succ f ih =>
    intro items hne hf
    rcases items with _ | ⟨a, _ | ⟨b, rest⟩⟩
    · exact absurd rfl hne
    · exact ⟨a, rfl⟩
    · rw [buildTreeF_cons_cons]
      apply ih
      · have hpos : 0 < (combine H (a :: b :: rest)).length := by
          rw [combine_length]
          simp only [List.length_cons]
          omega
        exact List.ne_nil_of_length_pos hpos
      · rw [combine_length]
        simp only [List.length_cons] at hf ⊢
        omega

/-- On an empty level `build_tree` never returns, whatever the fuel: the
recursion `build_tree([]) → build_tree([])` has no base case. -/
theorem buildTreeF_nil_none (H : List Nat → List Nat) :
    ∀ fuel : Nat, buildTreeF H fuel [] = none := by
  intro fuel
  induction fuel with
  | zero => rfl
  | succ f ih => exact ih

/-- The structural invariant of a built tree: every internal node's stored
hash is `H(left.hash ++ right.hash)`, except that a node whose right slot is
the `Empty` placeholder stores `H(left.hash ++ left.hash)` — the left child's
digest duplicated, not a hash of the placeholder's all-zero digest. -/
def Node.wellFormed (H : List Nat → List Nat) : Node → Prop
  | .empty => True
  | .leaf _ => True
  | .node h l r =>
    (match r with
     | .empty => h = H (l.hash ++ l.hash)
     | _ => h = H (l.hash ++ r.hash)) ∧ wellFormed H l ∧ wellFormed H r

theorem combine_wellFormed (H : List Nat → List Nat) :
    ∀ l : List Node, (∀ n ∈ l, n.wellFormed H) → Node.empty ∉ l →
      ∀ n ∈ combine H l, n.wellFormed H := by
  intro l
  induction l using combine.induct H with
  | case1 =>
    intro _ _ n hn
    simp [combine] at hn
  | case2 a =>
    intro hwf hne n hn
    simp only [combine, List.mem_singleton] at hn
    subst hn
    exact ⟨rfl, hwf a (List.mem_singleton_self a), trivial⟩
  | case3 a b rest ih =>
    intro hwf hne n hn
    simp only [combine, List.mem_cons] at hn
    rcases hn with hn | hn
    · subst hn
      have hbne : b ≠ Node.empty := by
        intro hb
        exact hne (by simp [hb])
      refine ⟨?_, hwf a (by simp), hwf b (by simp)⟩
      cases b with
      | empty => exact absurd rfl hbne
      | node h l r => rfl
      | leaf h => rfl
    · refine ih (fun m hm => hwf m (by simp [hm]) ) (fun hm => hne (by simp [hm])) n hn

theorem buildTreeF_wellFormed (H : List Nat → List Nat) :
    ∀ (fuel : Nat) (items : List Node) (r : Node),
      (∀ n ∈ items, n.wellFormed H) → Node.empty ∉ items →
      buildTreeF H fuel items = some r → r.wellFormed H := by
  intro fuel
  induction fuel with
  | zero =>
    intro items r _ _ hb
    simp [buildTreeF] at hb
  | succ f ih =>
    intro items r hwf hne hb
    rcases items with _ | ⟨a, _ | ⟨b, rest⟩⟩
    · have : buildTreeF H (f + 1) ([] : List Node) = none := buildTreeF_nil_none H (f + 1)
      rw [this] at hb
      exact absurd hb (by simp)
    · have hr : a = r := by
        rw [buildTreeF_single] at hb
        exact Option.some.inj hb
      subst hr
      exact hwf a (by simp)
    · rw [buildTreeF_cons_cons] at hb
      exact ih (combine H (a :: b :: rest)) r
        (combine_wellFormed H _ hwf hne) (combine_not_empty H _) hb

/-- The recorded walk has one entry per level strictly below the root:
`⌈log₂ n⌉` entries for a level of `n ≥ 1` nodes. -/
theorem genWalkF_length (H : List Nat → List Nat) :
    ∀ (fuel : Nat) (items : List Node) (i : Nat),
      items.length ≤ fuel → 1 ≤ items.length →
      (genWalkF H fuel items i).length = Nat.clog 2 items.length := by
  intro fuel
  induction fuel with
  | zero =>
    intro items i hf h1
    omega
  | succ f ih =>
    intro items i hf h1
    rcases items with _ | ⟨a, _ | ⟨b, rest⟩⟩
    · simp at h1
    · rw [genWalkF_single]
      simp [Nat.clog_one_right]
    · rw [genWalkF_cons_cons]
      simp only [List.length_cons]
      rw [ih (combine H (a :: b :: rest)) (i / 2)
          (by rw [combine_length]; simp only [List.length_cons] at hf ⊢; omega)
          (by rw [combine_length]; simp only [List.length_cons]; omega),
        combine_length]
      have h2 : 2 ≤ rest.length + 1 + 1 := by omega
      rw [Nat.clog_of_two_le (by norm_num) h2]
      simp only [List.length_cons]
      have : (rest.length + 1 + 1 + 2 - 1) / 2 = (rest.length + 1 + 1 + 1) / 2 := by
        omega
      rw [this]

theorem lookupIdx_lt (target : List Nat) :
    ∀ (l : List Node) (j : Nat), lookupIdx target l = some j → j < l.length := by
  intro l
  induction l with
  | nil => intro j h; simp [lookupIdx] at h
  | cons a rest ih =>
    intro j h
    simp only [lookupIdx] at h
    by_cases ha : a.hash = target
    · rw [if_pos ha] at h
      simp at h
      simp only [List.length_cons]
      omega
    · rw [if_neg ha] at h
      rcases hrest : lookupIdx target rest with _ | j'
      · rw [hrest] at h
        simp at h
      · rw [hrest] at h
        simp at h
        have := ih j' hrest
        simp only [List.length_cons]
        omega

theorem lookupIdx_hash (target : List Nat) :
    ∀ (l : List Node) (j : Nat), lookupIdx target l = some j →
      (l.getD j Node.empty).hash = target := by
  intro l
  induction l with
  | nil => intro j h; simp [lookupIdx] at h
  | cons a rest ih =>
    intro j h
    simp only [lookupIdx] at h
    by_cases ha : a.hash = target
    · rw [if_pos ha] at h
      simp at h
      subst h
      simpa using ha
    · rw [if_neg ha] at h
      rcases hrest : lookupIdx target rest with _ | j'
      · rw [hrest] at h
        simp at h
      · rw [hrest] at h
        simp at h
        subst h
        simpa using ih j' hrest

theorem lookupIdx_none_iff (target : List Nat) :
    ∀ l : List Node, lookupIdx target l = none ↔ ∀ n ∈ l, n.hash ≠ target := by
  intro l
  induction l with
  | nil => simp [lookupIdx]
  | cons a rest ih =>
    simp only [lookupIdx, List.mem_cons]
    by_cases ha : a.hash = target
    · rw [if_pos ha]
      simp [ha]
    · rw [if_neg ha]
      rcases hrest : lookupIdx target rest with _ | j'
      · constructor
        · intro _ n hn
          rcases hn with hn | hn
          · subst hn; exact ha
          · exact (ih.mp hrest) n hn
        · intro _
          rfl
      · constructor
        · intro hmap
          simp at hmap
        · intro hall
          have hnone : lookupIdx target rest = none :=
            ih.mpr (fun n hn => hall n (Or.inr hn))
          rw [hnone] at hrest
          exact absurd hrest (by simp)

theorem not_empty_mem_map_leaf (hashes : List (List Nat)) :
    Node.empty ∉ hashes.map Node.leaf := by
  simp

/-- A small concrete digest function used to instantiate the general theorems
at concrete inputs. -/
def Hc : List Nat → List Nat := fun l => 7 :: l

/-- The tree `MerkleTree::new` builds from the digests `[1]` and `[2]` under
`Hc`. -/
def treeA : MerkleTree :=
  { root := Node.node [7, 1, 2] (Node.leaf [1]) (Node.leaf [2]),
    leaves := [Node.leaf [1], Node.leaf [2]] }

/-- The tree `MerkleTree::new` builds from the digests `Hc [1]` and `Hc [2]`
under `Hc` (its leaves are digests of known preimages `[1]` and `[2]`). -/
def treeB : MerkleTree :=
  { root := Node.node [7, 7, 1, 7, 2] (Node.leaf [7, 1]) (Node.leaf [7, 2]),
    leaves := [Node.leaf [7, 1], Node.leaf [7, 2]] }

/-- C1 counterexample: a built tree and a target digest equal to no leaf's
digest for which `generate_proofs` returns `Ok []` — derived from the root,
which has no parent — rather than any error. -/
theorem generate_proofs_missing_not_error_cx :
    MerkleTree.new Hc [[1], [2]] = some treeA ∧
      ([1] : List Nat) ≠ [5] ∧ ([2] : List Nat) ≠ [5] ∧
      treeA.leaves = [Node.leaf [1], Node.leaf [2]] ∧
      MerkleTree.generate_proofs Hc treeA [5] = Except.ok [] :=
  ⟨rfl, by decide, by decide, rfl, rfl⟩

/-- C1 (amended): for every built tree and every target digest that equals no
leaf's digest, `generate_proofs` returns `Ok` of the empty proof list (the
lookup leaves the current node at the root, which has no parent), not a
`NotFound` error. -/
theorem generate_proofs_missing_ok_empty (H : List Nat → List Nat)
    (t : MerkleTree) (target : List Nat)
    (h : ∀ l ∈ t.leaves, l.hash ≠ target) :
    MerkleTree.generate_proofs H t target = Except.ok [] := by
  have hnone := (lookupIdx_none_iff target t.leaves).mpr h
  simp [MerkleTree.generate_proofs, hnone]

theorem generate_proofs_missing_ok_empty_witness :
    (∀ l ∈ treeA.leaves, l.hash ≠ [5]) ∧
      MerkleTree.generate_proofs Hc treeA [5] = Except.ok [] :=
  ⟨by decide, generate_proofs_missing_ok_empty Hc treeA [5] (by decide)⟩

/-- C3: `generate_proofs` never returns the error variant: for every tree and
every target digest it returns `Ok`, and when the target matches no leaf the
returned proof list is empty (the walk starts at the root, which has no
parent). -/
theorem generate_proofs_always_ok (H : List Nat → List Nat) (t : MerkleTree)
    (target : List Nat) :
    ∃ ps, MerkleTree.generate_proofs H t target = Except.ok ps ∧
      ((∀ l ∈ t.leaves, l.hash ≠ target) → ps = []) := by
  rcases hl : lookupIdx target t.leaves with _ | j
  · exact ⟨[], by simp [MerkleTree.generate_proofs, hl], fun _ => rfl⟩
  · refine ⟨genWalkF H t.leaves.length t.leaves j,
      by simp [MerkleTree.generate_proofs, hl], fun hall => ?_⟩
    have hnone := (lookupIdx_none_iff target t.leaves).mpr hall
    rw [hnone] at hl
    exact absurd hl (by simp)

theorem generate_proofs_always_ok_witness :
    ∃ ps, MerkleTree.generate_proofs Hc treeA [5] = Except.ok ps ∧
      ((∀ l ∈ treeA.leaves, l.hash ≠ [5]) → ps = []) :=
  generate_proofs_always_ok Hc treeA [5]

/-- C2: round-trip correctness — for every tree built by `new` and every
retained leaf whose stored digest is the digest of `data`, generating a proof
for that digest and verifying it against `data` reproduces the tree's root
hash. -/
theorem verify_generate_proofs_roundtrip (H : List Nat → List Nat)
    (hashes : List (List Nat)) (t : MerkleTree) (data : List Nat) (j : Nat)
    (ht : MerkleTree.new H hashes = some t)
    (hj : j < t.leaves.length)
    (hleaf : (t.leaves.getD j Node.empty).hash = H data) :
    ∃ ps, MerkleTree.generate_proofs H t (H data) = Except.ok ps ∧
      MerkleTree.verify H data ps = t.root_hash := by
  rcases hb : buildTreeF H hashes.length (hashes.map Node.leaf) with _ | r
  · rw [MerkleTree.new, hb] at ht
    simp at ht
  · rw [MerkleTree.new, hb] at ht
    simp only [Option.map_some'] at ht
    have ht' := Option.some.inj ht
    subst ht'
    rcases hl : lookupIdx (H data) (hashes.map Node.leaf) with _ | j0
    · exfalso
      have hall := (lookupIdx_none_iff (H data) (hashes.map Node.leaf)).mp hl
      exact hall ((hashes.map Node.leaf).getD j Node.empty)
        (getD_mem_of_lt Node.empty _ j hj) hleaf
    · refine ⟨genWalkF H (hashes.map Node.leaf).length (hashes.map Node.leaf) j0,
        by simp [MerkleTree.generate_proofs, hl], ?_⟩
      have hj0 := lookupIdx_lt (H data) (hashes.map Node.leaf) j0 hl
      have hh0 := lookupIdx_hash (H data) (hashes.map Node.leaf) j0 hl
      rw [MerkleTree.verify, ← hh0]
      exact genWalkF_fold H (hashes.map Node.leaf).length (hashes.map Node.leaf)
        j0 r (le_refl _) (not_empty_mem_map_leaf hashes) hj0
        (by simpa [List.length_map] using hb)

theorem verify_generate_proofs_roundtrip_witness :
    MerkleTree.new Hc [[7, 1], [7, 2]] = some treeB ∧ 0 < treeB.leaves.length ∧
      (treeB.leaves.getD 0 Node.empty).hash = Hc [1] ∧
      ∃ ps, MerkleTree.generate_proofs Hc treeB (Hc [1]) = Except.ok ps ∧
        MerkleTree.verify Hc [1] ps = treeB.root_hash :=
  ⟨rfl, by decide, by decide,
    verify_generate_proofs_roundtrip Hc [[7, 1], [7, 2]] treeB [1] 0 rfl
      (by decide) (by decide)⟩

/-- C4: `verify` is exactly the left fold that starts from `H data` and, for
each proof entry in list order, hashes current-then-sibling when the side
marker is `1` and sibling-then-current otherwise; being a total function it
never fails. -/
theorem verify_eq_foldl (H : List Nat → List Nat) (data : List Nat)
    (proofs : List (List Nat × Nat)) :
    MerkleTree.verify H data proofs =
      proofs.foldl
        (fun hash p => if p.2 = 1 then H (hash ++ p.1) else H (p.1 ++ hash))
        (H data) := by
  rw [MerkleTree.verify]
  generalize H data = h
  induction proofs generalizing h with
  | nil => rfl
  | cons p ps ih => rw [verifyLoop, List.foldl_cons, ih]

/-- C5: in every tree built by `new`, every internal node's digest is
`H(left.hash ++ right.hash)`, and when the right slot is the `Empty`
placeholder the stored digest is `H(x ++ x)` for the left child's digest `x`
(never a hash of the placeholder's all-zero digest). -/
theorem root_wellFormed (H : List Nat → List Nat) (hashes : List (List Nat))
    (t : MerkleTree) (ht : MerkleTree.new H hashes = some t) :
    t.root.wellFormed H := by
  rcases hb : buildTreeF H hashes.length (hashes.map Node.leaf) with _ | r
  · rw [MerkleTree.new, hb] at ht
    simp at ht
  · rw [MerkleTree.new, hb] at ht
    simp only [Option.map_some'] at ht
    have ht' := Option.some.inj ht
    subst ht'
    refine buildTreeF_wellFormed H hashes.length (hashes.map Node.leaf) r
      ?_ (not_empty_mem_map_leaf hashes) hb
    intro n hn
    rcases List.mem_map.mp hn with ⟨a, _, ha⟩
    subst ha
    exact trivial

theorem root_wellFormed_witness :
    MerkleTree.new Hc [[1], [2]] = some treeA ∧ treeA.root.wellFormed Hc :=
  ⟨rfl, root_wellFormed Hc [[1], [2]] treeA rfl⟩

/-- C6: for a tree built from `n` leaf digests, the proof generated for any
retained leaf's digest has length `⌈log₂ n⌉` — in particular length `0` when
`n = 1`. -/
theorem generate_proofs_length (H : List Nat → List Nat)
    (hashes : List (List Nat)) (t : MerkleTree) (d : List Nat) (j : Nat)
    (ht : MerkleTree.new H hashes = some t)
    (hj : j < t.leaves.length)
    (hleaf : (t.leaves.getD j Node.empty).hash = d) :
    ∃ ps, MerkleTree.generate_proofs H t d = Except.ok ps ∧
      ps.length = Nat.clog 2 hashes.length ∧
      (hashes.length = 1 → ps.length = 0) := by
  rcases hb : buildTreeF H hashes.length (hashes.map Node.leaf) with _ | r
  · rw [MerkleTree.new, hb] at ht
    simp at ht
  · rw [MerkleTree.new, hb] at ht
    simp only [Option.map_some'] at ht
    have ht' := Option.some.inj ht
    subst ht'
    have hj' : j < (hashes.map Node.leaf).length := hj
    rcases hl : lookupIdx d (hashes.map Node.leaf) with _ | j0
    · exfalso
      have hall := (lookupIdx_none_iff d (hashes.map Node.leaf)).mp hl
      exact hall ((hashes.map Node.leaf).getD j Node.empty)
        (getD_mem_of_lt Node.empty _ j hj') hleaf
    · refine ⟨genWalkF H (hashes.map Node.leaf).length (hashes.map Node.leaf) j0,
        by simp [MerkleTree.generate_proofs, hl], ?_, ?_⟩
      · rw [genWalkF_length H (hashes.map Node.leaf).length (hashes.map Node.leaf)
          j0 (le_refl _) (by simp only [List.length_map] at hj' ⊢; omega)]
        simp [List.length_map]
      · intro h1
        rw [genWalkF_length H (hashes.map Node.leaf).length (hashes.map Node.leaf)
          j0 (le_refl _) (by simp only [List.length_map] at hj' ⊢; omega)]
        simp [List.length_map, h1, Nat.clog_one_right]

theorem generate_proofs_length_witness :
    MerkleTree.new Hc [[7, 1], [7, 2]] = some treeB ∧ 0 < treeB.leaves.length ∧
      (treeB.leaves.getD 0 Node.empty).hash = [7, 1] ∧
      ∃ ps, MerkleTree.generate_proofs Hc treeB [7, 1] = Except.ok ps ∧
        ps.length = Nat.clog 2 ([[7, 1], [7, 2]] : List (List Nat)).length ∧
        (([[7, 1], [7, 2]] : List (List Nat)).length = 1 → ps.length = 0) :=
  ⟨rfl, by decide, by decide,
    generate_proofs_length Hc [[7, 1], [7, 2]] treeB [7, 1] 0 rfl
      (by decide) (by decide)⟩

/-- C7: construction terminates and succeeds on every non-empty input: with
fuel `hashes.length` (an upper bound on the number of levels) the recursion
reaches a single root, so `new` returns `some` tree. -/
theorem new_succeeds (H : List Nat → List Nat) (hashes : List (List Nat))
    (hne : hashes ≠ []) : ∃ t, MerkleTree.new H hashes = some t := by
  obtain ⟨r, hr⟩ := buildTreeF_some H hashes.length (hashes.map Node.leaf)
    (by simpa using hne) (by simp)
  exact ⟨{ root := r, leaves := hashes.map Node.leaf },
    by simp [MerkleTree.new, hr]⟩

theorem new_succeeds_witness :
    ([[1]] : List (List Nat)) ≠ [] ∧ ∃ t, MerkleTree.new Hc [[1]] = some t :=
  ⟨by decide, new_succeeds Hc [[1]] (by decide)⟩

/-- C8: on the empty leaf sequence, `build_tree` recurses on an empty level
forever — no fuel ever suffices — so `new` produces nothing; in particular
the code never produces an `InvalidInput` error (its signature has no error
path at all). -/
theorem new_empty_diverges (H : List Nat → List Nat) (fuel : Nat) :
    buildTreeF H fuel [] = none ∧ MerkleTree.new H [] = none :=
  ⟨buildTreeF_nil_none H fuel,
    by simp [MerkleTree.new, buildTreeF_nil_none]⟩

/-- C9: a tree built from exactly one leaf digest has that leaf node itself
as root, and `root_hash` returns the leaf digest unchanged. -/
theorem single_leaf_root (H : List Nat → List Nat) (d : List Nat) :
    MerkleTree.new H [d] = some { root := Node.leaf d, leaves := [Node.leaf d] } ∧
      (MerkleTree.new H [d]).map MerkleTree.root_hash = some d :=
  ⟨rfl, rfl⟩

/-! ## SHA-256 (the `hmac_sha256::Hash::hash` collaborator)

A byte-level SHA-256 over `List Nat`, used to check the known root vectors:
big-endian padding and word packing, the 64-round compression, and the final
big-endian serialization of the eight state words.  All arithmetic is `Nat`
reduced mod `2^32` where the algorithm wraps. -/

def bytesBE : Nat → Nat → List Nat
  | 0, _ => []
  | k + 1, n => bytesBE k (n / 256) ++ [n % 256]

def sha256pad (m : List Nat) : List Nat :=
  m ++ [128] ++ List.replicate ((119 - m.length % 64) % 64) 0 ++
    bytesBE 8 (8 * m.length)

def toWords : List Nat → List Nat
  | a :: b :: c :: d :: rest =>
    (((a * 256 + b) * 256 + c) * 256 + d) :: toWords rest
  | _ => []

def rotr32 (n x : Nat) : Nat := (x >>> n) ||| ((x <<< (32 - n)) % 4294967296)

def ssig0 (x : Nat) : Nat := rotr32 7 x ^^^ rotr32 18 x ^^^ (x >>> 3)

def ssig1 (x : Nat) : Nat := rotr32 17 x ^^^ rotr32 19 x ^^^ (x >>> 10)

def bsig0 (x : Nat) : Nat := rotr32 2 x ^^^ rotr32 13 x ^^^ rotr32 22 x

def bsig1 (x : Nat) : Nat := rotr32 6 x ^^^ rotr32 11 x ^^^ rotr32 25 x

def chf (x y z : Nat) : Nat := (x &&& y) ^^^ ((x ^^^ 4294967295) &&& z)

def majf (x y z : Nat) : Nat := (x &&& y) ^^^ (x &&& z) ^^^ (y &&& z)

/-- The 64 SHA-256 round constants of FIPS 180-4, written in decimal. -/
def K256 : List Nat := [
  1116352408, 1899447441, 3049323471, 3921009573, 961987163,
  1508970993, 2453635748, 2870763221, 3624381080, 310598401,
  607225278, 1426881987, 1925078388, 2162078206, 2614888103,
  3248222580, 3835390401, 4022224774, 264347078, 604807628,
  770255983, 1249150122, 1555081692, 1996064986, 2554220882,
  2821834349, 2952996808, 3210313671, 3336571891, 3584528711,
  113926993, 338241895, 666307205, 773529912, 1294757372,
  1396182291, 1695183700, 1986661051, 2177026350, 2456956037,
  2730485921, 2820302411, 3259730800, 3345764771, 3516065817,
  3600352804, 4094571909, 275423344, 430227734, 506948616,
  659060556, 883997877, 958139571, 1322822218, 1537002063,
  1747873779, 1955562222, 2024104815, 2227730452, 2361852424,
  2428436474, 2756734187, 3204031479, 3329325298
]

/-- The eight SHA-256 initial state words of FIPS 180-4, in decimal. -/
def initH256 : List Nat := [
  1779033703, 3144134277, 1013904242, 2773480762, 1359893119,
  2600822924, 528734635, 1541459225
]

def schedExtend : List Nat → Nat → List Nat
  | w, 0 => w
  | w, k + 1 =>
    let i := w.length
    schedExtend
      (w ++ [(ssig1 (w.getD (i - 2) 0) + w.getD (i - 7) 0 +
        ssig0 (w.getD (i - 15) 0) + w.getD (i - 16) 0) % 4294967296]) k

def round256 (s : List Nat) (k w : Nat) : List Nat :=
  match s with
  | [a, b, c, d, e, f, g, h] =>
    let t1 := (h + bsig1 e + chf e f g + k + w) % 4294967296
    let t2 := (bsig0 a + majf a b c) % 4294967296
    [(t1 + t2) % 4294967296, a, b, c, (d + t1) % 4294967296, e, f, g]
  | _ => s

def compress256 (hs : List Nat) (block : List Nat) : List Nat :=
  let w := schedExtend block 48
  let s := (K256.zip w).foldl (fun s p => round256 s p.1 p.2) hs
  (hs.zip s).map (fun p => (p.1 + p.2) % 4294967296)

def sha256blocks : List Nat → List Nat → List Nat
  | hs, w0 :: w1 :: w2 :: w3 :: w4 :: w5 :: w6 :: w7 :: w8 :: w9 :: w10 ::
      w11 :: w12 :: w13 :: w14 :: w15 :: rest =>
    sha256blocks
      (compress256 hs
        [w0, w1, w2, w3, w4, w5, w6, w7, w8, w9, w10, w11, w12, w13, w14, w15])
      rest
  | hs, _ => hs

def sha256 (m : List Nat) : List Nat :=
  (sha256blocks initH256 (toWords (sha256pad m))).foldr
    (fun w acc => bytesBE 4 w ++ acc) []

/-- C10: with SHA-256 as the digest function and leaves that are the SHA-256
digests of the UTF-8 encodings of the listed strings (`"a"` = byte `97`,
`"b"` = `98`, `"c"` = `99`, `"d"` = `100`), the built tree's root digest
equals the known vectors: `14ede5e8…13e7` for `["a","b","c","d"]` and
`d31a37ef…fabe` for the odd-count `["a","b","c"]` (both byte lists below are
those hex digests). -/
theorem sha256_known_vectors :
    (MerkleTree.new sha256
        [sha256 [97], sha256 [98], sha256 [99], sha256 [100]]).map
        MerkleTree.root_hash =
      some [20, 237, 229, 232, 233, 122, 217, 55, 35, 39, 114, 143, 80, 153,
        185, 86, 4, 163, 149, 147, 202, 195, 189, 56, 163, 67, 173, 118, 32,
        82, 19, 231] ∧
    (MerkleTree.new sha256 [sha256 [97], sha256 [98], sha256 [99]]).map
        MerkleTree.root_hash =
      some [211, 26, 55, 239, 106, 193, 74, 45, 177, 71, 12, 67, 22, 190,
        181, 89, 46, 106, 253, 68, 101, 2, 35, 57, 173, 175, 218, 118, 161,
        143, 250, 190] := by
  constructor
  · set_option maxRecDepth 100000 in decide
  · set_option maxRecDepth 100000 in decide
